import Mathlib

set_option maxHeartbeats 1000000
set_option maxRecDepth 4000

namespace Proofset

/-! ## String model

JavaScript strings from the TypeScript sources (packages/core/src) are
modelled as lists of characters.  All inputs handled by the proofset core
are Unicode text; character-position indexing in the sources corresponds
to list positions here. -/

/-- JavaScript strings are modelled as lists of characters. -/
abbrev Str := List Char

/-- CRLF line terminator used throughout the proofset formats. -/
def crlf : Str := ['\r', '\n']

/-- Separator between a detail hash and the detail string in a detail line. -/
def colonSp : Str := [':', ' ']

/-- Characters of the regex character class [0-9a-fA-F]. -/
def hexChars : Str := ("0123456789abcdefABCDEF".data)

/-- Lowercase hexadecimal digits, the alphabet of all digests produced by hash.ts. -/
def lowerHexChars : Str := ("0123456789abcdef".data)

/-- Decides membership in the regex character class [0-9a-fA-F]. -/
def isHexChar (c : Char) : Bool := hexChars.contains c

/-- Holds when every character of the string is a lowercase hex digit. -/
def isLowerHexStr (l : Str) : Bool := l.all (fun c => lowerHexChars.contains c)

/-- Characters of the regex character class [0-9] (regex \d). -/
def digitChars : Str := ("0123456789".data)

/-- Decides membership in the regex character class [0-9]. -/
def isDigitChar (c : Char) : Bool := digitChars.contains c

/-- Lowercase ASCII letters. -/
def lowerAlpha : Str := ("abcdefghijklmnopqrstuvwxyz".data)

/-- Uppercase ASCII letters. -/
def upperAlpha : Str := ("ABCDEFGHIJKLMNOPQRSTUVWXYZ".data)

/-- Models String.prototype.toUpperCase on one character, restricted to the
ASCII range that the proofset formats use. -/
def asciiUpper (c : Char) : Char :=
  match (lowerAlpha.zip upperAlpha).find? (fun p => p.1 == c) with
  | some p => p.2
  | none => c

/-- Models String.prototype.toLowerCase on one character, restricted to the
ASCII range that the proofset formats use. -/
def asciiLower (c : Char) : Char :=
  match (upperAlpha.zip lowerAlpha).find? (fun p => p.1 == c) with
  | some p => p.2
  | none => c

/-- Models String.prototype.toLowerCase. -/
def jsLower (s : Str) : Str := s.map asciiLower

/-- Models String.prototype.toUpperCase. -/
def jsUpper (s : Str) : Str := s.map asciiUpper

/-- Whitespace characters recognised by String.prototype.trim: the
ECMAScript WhiteSpace set (tab, LF, VT, FF, CR, space, NBSP, ZWNBSP and
every Space_Separator code point) plus the LineTerminator code points. -/
def jsWsChars : Str :=
  ['\t', '\n', '\x0b', '\x0c', '\r', ' ', '\u00A0', '\u1680',
   '\u2000', '\u2001', '\u2002', '\u2003', '\u2004', '\u2005', '\u2006',
   '\u2007', '\u2008', '\u2009', '\u200A', '\u2028', '\u2029', '\u202F',
   '\u205F', '\u3000', '\uFEFF']

/-- Models String.prototype.trim. -/
def jsTrim (l : Str) : Str :=
  ((l.dropWhile (fun c => jsWsChars.contains c)).reverse.dropWhile
    (fun c => jsWsChars.contains c)).reverse

/-- Models Array.prototype.join with the given separator string. -/
def joinWith (sep : Str) : List Str → Str
  | [] => []
  | [x] => x
  | x :: xs => x ++ sep ++ joinWith sep xs

/-- Models indexOf(': ') followed by the two slices around the first
occurrence: returns the text before the first ": " and the text after it,
or none when no ": " occurs. -/
def splitFirstSep : Str → Option (Str × Str)
  | [] => none
  | c :: rest =>
    if c = ':' ∧ rest.head? = some ' ' then some ([], rest.tail)
    else
      match splitFirstSep rest with
      | some (pre, post) => some (c :: pre, post)
      | none => none

/-- Models String.prototype.split with a one-character separator: splits on
every occurrence, keeping empty pieces, as JavaScript does. -/
def splitOnChar (sep : Char) : Str → List Str
  | [] => [[]]
  | c :: rest =>
    match splitOnChar sep rest with
    | [] => [[c]]
    | p :: ps => if c = sep then [] :: p :: ps else (c :: p) :: ps

/-- Models String.prototype.split on the two-character separator "\r\n". -/
def splitCRLF : Str → List Str
  | [] => [[]]
  | [c] => [[c]]
  | c1 :: c2 :: rest =>
    if c1 = '\r' ∧ c2 = '\n' then
      [] :: splitCRLF rest
    else
      match splitCRLF (c2 :: rest) with
      | [] => [[c1]]
      | p :: ps => (c1 :: p) :: ps

/-- Models String.prototype.split on the regex /\r?\n/ (leftmost-longest at
each position, as the JavaScript regex engine matches it). -/
def splitLines : Str → List Str
  | [] => [[]]
  | [c] => if c = '\n' then [[], []] else [[c]]
  | c1 :: c2 :: rest =>
    if c1 = '\r' ∧ c2 = '\n' then
      [] :: splitLines rest
    else if c1 = '\n' then
      [] :: splitLines (c2 :: rest)
    else
      match splitLines (c2 :: rest) with
      | [] => [[c1]]
      | p :: ps => (c1 :: p) :: ps

/-- UTF-8 encoding of one Unicode scalar value, as TextEncoder emits it. -/
def utf8Char (c : Char) : List Nat :=
  let n := c.toNat
  if n < 128 then [n]
  else if n < 2048 then [192 + n / 64, 128 + n % 64]
  else if n < 65536 then [224 + n / 4096, 128 + (n / 64) % 64, 128 + n % 64]
  else [240 + n / 262144, 128 + (n / 4096) % 64, 128 + (n / 64) % 64, 128 + n % 64]

/-- Models TextEncoder.prototype.encode: UTF-8 bytes of a string. -/
def utf8Encode (s : Str) : List Nat := s.flatMap utf8Char

/-! ## Data model (packages/core/src/types.ts) -/

/-- Hash algorithm enum from types.ts: 'SHA-256' | 'SHA-512'. -/
inductive HashAlgorithm
  | sha256
  | sha512
deriving DecidableEq

/-- Number of hex characters in a digest of the given algorithm. -/
def hexLenOf : HashAlgorithm → Nat
  | .sha256 => 64
  | .sha512 => 128

/-- UTC components of a JavaScript Date, as read by getUTCFullYear,
getUTCMonth (0-based), getUTCDate, getUTCHours, getUTCMinutes, getUTCSeconds. -/
structure JSDate where
  utcFullYear : Nat
  utcMonth : Nat
  utcDate : Nat
  utcHours : Nat
  utcMinutes : Nat
  utcSeconds : Nat
deriving DecidableEq

/-- SourceFileEntry from types.ts. -/
structure SourceFileEntry where
  relativePath : Str
  fullPath : Option Str
  modifiedTime : JSDate
  content : List Nat
deriving DecidableEq

/-- ProofsetConfig from types.ts. -/
structure ProofsetConfig where
  seedPassword : Str
  algorithm : HashAlgorithm
deriving DecidableEq

/-- ProofsetFileDetails from types.ts. -/
structure ProofsetFileDetails where
  fileDetailsHash : Str
  fileSecret : Str
  modifiedTimeUtc : Str
  contentHash : Str
  filePath : Str
deriving DecidableEq

/-- ProofsetResult from types.ts. -/
structure ProofsetResult where
  hashsetHash : Str
  fileDetailsHashList : Str
  fileDetails : List ProofsetFileDetails
  fileDetailsLineList : Str
deriving DecidableEq

/-! ## Digest provider (packages/core/src/hash.ts)

hash.ts wraps the external crypto.subtle.digest primitive and renders the
digest bytes as lowercase hex via toHex.  The primitive is outside the
repository, so the composite digest-to-hex function is a parameter of the
development; where a claim needs them, the two facts guaranteed by that
wrapper (lowercase hex output of the algorithm's fixed length) are taken
as hypotheses. -/

/-- Abstract digest: crypto.subtle.digest composed with hash.ts's toHex. -/
abbrev Digest := HashAlgorithm → List Nat → Str

/-- hashString from hash.ts: UTF-8 encode, digest, lowercase hex. -/
def hashString (digest : Digest) (alg : HashAlgorithm) (input : Str) : Str :=
  digest alg (utf8Encode input)

/-- hashBytes from hash.ts: digest raw bytes, lowercase hex. -/
def hashBytes (digest : Digest) (alg : HashAlgorithm) (input : List Nat) : Str :=
  digest alg input

/-- The two facts hash.ts guarantees about its output: lowercase hex of the
algorithm's digest length. -/
def DigestOK (digest : Digest) : Prop :=
  ∀ a bs, isLowerHexStr (digest a bs) = true ∧ (digest a bs).length = hexLenOf a

/-! ## Proofset assembly (packages/core/src/proofset.ts) -/

/-- Models String(n) for a natural number: decimal digits. -/
def natStr (n : Nat) : Str := (toString n).data

/-- Models String.prototype.padStart(2, '0'). -/
def padTwo (s : Str) : Str :=
  if s.length < 2 then List.replicate (2 - s.length) '0' ++ s else s

/-- formatModifiedTime from proofset.ts: YYYYMMDD-hhmmss in UTC. -/
def formatModifiedTime (d : JSDate) : Str :=
  natStr d.utcFullYear ++ padTwo (natStr (d.utcMonth + 1)) ++ padTwo (natStr d.utcDate)
    ++ ['-'] ++ padTwo (natStr d.utcHours) ++ padTwo (natStr d.utcMinutes)
    ++ padTwo (natStr d.utcSeconds)

/-- buildFileDetails from proofset.ts:
file_secret + ' ' + modified_time + ' ' + content_hash + ' ' + file_path. -/
def buildFileDetails (fileSecret modifiedTimeUtc contentHash filePath : Str) : Str :=
  fileSecret ++ [' '] ++ modifiedTimeUtc ++ [' '] ++ contentHash ++ [' '] ++ filePath

/-- Loop state of createProofset: the previous (secret, detail hash) pair —
null before the first entry — and the three accumulated outputs. -/
structure ChainSt where
  prev : Option (Str × Str)
  fileDetails : List ProofsetFileDetails
  fileDetailsHashList : Str
  fileDetailsLines : List Str
deriving DecidableEq

/-- The file secret used for the next entry: createProofset presets
fileSecret to H(seed_password) and, when prevFileSecret and
prevFileDetailsHash are non-null, reassigns it to
H(seed_password + prevFileSecret + prevFileDetailsHash). -/
def nextSecret (digest : Digest) (seed : Str) (alg : HashAlgorithm)
    (prev : Option (Str × Str)) : Str :=
  match prev with
  | none => hashString digest alg seed
  | some (ps, ph) => hashString digest alg (seed ++ ps ++ ph)

/-- Body of the inner `for (const filePath of paths)` loop of createProofset. -/
def chainStep (digest : Digest) (seed : Str) (alg : HashAlgorithm)
    (modifiedTimeUtc contentHash : Str) (st : ChainSt) (filePath : Str) : ChainSt :=
  let fileSecret := nextSecret digest seed alg st.prev
  let detailStr := buildFileDetails fileSecret modifiedTimeUtc contentHash filePath
  let fdHash := hashString digest alg detailStr
  { prev := some (fileSecret, fdHash)
    fileDetails := st.fileDetails ++
      [⟨fdHash, fileSecret, modifiedTimeUtc, contentHash, filePath⟩]
    fileDetailsHashList := st.fileDetailsHashList ++ fdHash ++ crlf
    fileDetailsLines := st.fileDetailsLines ++ [fdHash ++ colonSp ++ detailStr] }

/-- The paths array built for one source file: the full/original path when
present, then the relative path. -/
def pathsOf (f : SourceFileEntry) : List Str :=
  (match f.fullPath with
   | some fp => [fp]
   | none => []) ++ [f.relativePath]

/-- Body of the outer `for await (const file of files)` loop of createProofset. -/
def processFile (digest : Digest) (seed : Str) (alg : HashAlgorithm)
    (st : ChainSt) (f : SourceFileEntry) : ChainSt :=
  let contentHash := hashBytes digest alg f.content
  let modifiedTimeUtc := formatModifiedTime f.modifiedTime
  (pathsOf f).foldl (chainStep digest seed alg modifiedTimeUtc contentHash) st

/-- Initial loop state of createProofset. -/
def initSt : ChainSt := ⟨none, [], [], []⟩

/-- The loop of createProofset, run over the whole file sequence. -/
def chainRun (digest : Digest) (seed : Str) (alg : HashAlgorithm)
    (files : List SourceFileEntry) : ChainSt :=
  files.foldl (processFile digest seed alg) initSt

/-- createProofset from proofset.ts.  The asynchronous iteration of the
source is an ordered sequential loop; it is modelled as the fold chainRun. -/
def createProofset (digest : Digest) (files : List SourceFileEntry)
    (config : ProofsetConfig) : ProofsetResult :=
  let st := chainRun digest config.seedPassword config.algorithm files
  { hashsetHash := hashBytes digest config.algorithm (utf8Encode st.fileDetailsHashList)
    fileDetailsHashList := st.fileDetailsHashList
    fileDetails := st.fileDetails
    fileDetailsLineList := joinWith crlf st.fileDetailsLines ++ crlf }

/-! ## Verifier (packages/core/src/verify.ts)

Each `throw new Error(...)` site of verify.ts is modelled as a distinct
error value of an Except result. -/

/-- Errors thrown by verify.ts, one constructor per throw site. -/
inductive VerifyError
  | invalidHashLength (n : Nat)
  | malformedLine
  | malformedDetailItem
  | emptyPath
  | simpleMissingFields
  | simpleMissingFilename
deriving DecidableEq

/-- inferAlgorithm from verify.ts. -/
def inferAlgorithm (hexHash : Str) : Except VerifyError HashAlgorithm :=
  if hexHash.length = 64 then .ok .sha256
  else if hexHash.length = 128 then .ok .sha512
  else .error (.invalidHashLength hexHash.length)

/-- Result record of verifyFileDetailsLine. -/
structure LineVerifyResult where
  valid : Bool
  fileDetailsHash : Str
deriving DecidableEq

/-- verifyFileDetailsLine from verify.ts. -/
def verifyFileDetailsLine (digest : Digest) (detailLine : Str) :
    Except VerifyError LineVerifyResult :=
  match splitFirstSep detailLine with
  | none => .error .malformedLine
  | some (fileDetailsHash, fileDetails) =>
    match inferAlgorithm fileDetailsHash with
    | .error e => .error e
    | .ok algorithm =>
      let computed := hashString digest algorithm fileDetails
      .ok ⟨computed == jsLower fileDetailsHash, fileDetailsHash⟩

/-- verifyHashsetHash from verify.ts. -/
def verifyHashsetHash (digest : Digest) (fileDetailsHashList expectedHashsetHash : Str) :
    Except VerifyError Bool :=
  match inferAlgorithm expectedHashsetHash with
  | .error e => .error e
  | .ok algorithm =>
    let computed := hashBytes digest algorithm (utf8Encode fileDetailsHashList)
    .ok (computed == jsLower expectedHashsetHash)

/-- verifyFileDetailsHashInList from verify.ts. -/
def verifyFileDetailsHashInList (fileDetailsHash fileDetailsHashList : Str) : Bool :=
  let hashes := (splitCRLF fileDetailsHashList).filter (fun l => !l.isEmpty)
  hashes.any (fun h => jsLower h == jsLower fileDetailsHash)

/-- DETAIL_LINE_RE.test from verify.ts: the regex /^[0-9a-fA-F]{64,128}: /
matches when for some count k between 64 and 128 the first k characters
are hex digits and are followed by ": ". -/
def detailLineTest (l : Str) : Bool :=
  (List.range' 64 65).any fun k =>
    ((l.take k).all isHexChar) && ((l.drop k).take 2 == colonSp)

/-- extractDetailLines from verify.ts. -/
def extractDetailLines (content : Str) : List Str :=
  (splitLines content).filter detailLineTest

/-- ParsedFileDetailsLine from types.ts. -/
structure ParsedFileDetailsLine where
  fileDetailsHash : Str
  fileSecret : Str
  modifiedTimeUtc : Str
  fileContentHash : Str
  filePath : Str
deriving DecidableEq

/-- parseFileDetailsLine from verify.ts. -/
def parseFileDetailsLine (detailLine : Str) : Except VerifyError ParsedFileDetailsLine :=
  match splitFirstSep detailLine with
  | none => .error .malformedLine
  | some (fileDetailsHash, fileDetails) =>
    let parts := splitOnChar ' ' fileDetails
    if parts.length < 4 then .error .malformedDetailItem
    else
      let filePath := jsTrim (joinWith [' '] (parts.drop 3))
      if filePath.length = 0 then .error .emptyPath
      else .ok ⟨fileDetailsHash, parts.getD 0 [], parts.getD 1 [], parts.getD 2 [], filePath⟩

/-- normalizePath from verify.ts: backslashes become forward slashes. -/
def normalizePath (p : Str) : Str :=
  p.map (fun c => if c = '\\' then '/' else c)

/-- Models remaining.indexOf('/') followed by remaining.slice(slashIdx + 1):
the text after the first '/', or none when the string has no '/'. -/
def afterFirstSlash : Str → Option Str
  | [] => none
  | c :: rest => if c = '/' then some rest else afterFirstSlash rest

/-- Helper fact: afterFirstSlash returns a strictly shorter string. -/
theorem afterFirstSlash_length {l r : Str} (h : afterFirstSlash l = some r) :
    r.length < l.length := by
  induction l with
  | nil => simp [afterFirstSlash] at h
  | cons c rest ih =>
    by_cases hc : c = '/'
    · simp [afterFirstSlash, hc] at h
      subst h
      simp
    · simp only [afterFirstSlash, if_neg hc] at h
      calc r.length < rest.length := ih h
        _ < (c :: rest).length := by simp

/-- The `while (true)` suffix-stripping loop of lookupBySuffix from verify.ts. -/
def stripLoop (fileContentHashes : List (Str × Str)) (remaining : Str) : Option Str :=
  match h : afterFirstSlash remaining with
  | none => none
  | some rest =>
    if rest = [] then none
    else
      match (fileContentHashes.find? (fun e => e.1 == rest)).map (fun e => e.2) with
      | some found => some found
      | none =>
        have : rest.length < remaining.length := afterFirstSlash_length h
        stripLoop fileContentHashes rest
termination_by remaining.length

/-- Suffixes of a path following each '/', leftmost first. -/
def slashSuffixes : Str → List Str
  | [] => []
  | c :: rest => if c = '/' then rest :: slashSuffixes rest else slashSuffixes rest

/-- The ordered list of suffixes the stripping loop of lookupBySuffix tries:
after each leftmost-segment strip, the non-empty remainder. -/
def stripCandidates (p : Str) : List Str :=
  (slashSuffixes p).filter (fun r => !r.isEmpty)

/-- Models Map.prototype.get on the insertion-ordered (path, hash) map. -/
def mapGet (m : List (Str × Str)) (k : Str) : Option Str :=
  (m.find? (fun e => e.1 == k)).map (fun e => e.2)

/-- Models mapPath.lastIndexOf('/') followed by mapPath.slice(lastSlash + 1):
the filename component of a path. -/
def afterLastSlash (p : Str) : Str :=
  (p.reverse.takeWhile (fun c => c ≠ '/')).reverse

/-- The filename-only fallback scan of lookupBySuffix from verify.ts: the
first map entry, in insertion order, whose filename equals the entry path. -/
def filenameScan (entryPath : Str) (m : List (Str × Str)) : Option Str :=
  m.findSome? (fun e => if afterLastSlash e.1 == entryPath then some e.2 else none)

/-- lookupBySuffix from verify.ts. -/
def lookupBySuffix (entryPath : Str) (fileContentHashes : List (Str × Str)) : Option Str :=
  match mapGet fileContentHashes entryPath with
  | some direct => some direct
  | none =>
    match stripLoop fileContentHashes entryPath with
    | some found => some found
    | none =>
      if entryPath.contains '/' then none
      else filenameScan entryPath fileContentHashes

/-- Match status of a ContentMatchResult. -/
inductive MatchStatus
  | matched
  | mismatch
  | notFound
deriving DecidableEq

/-- ContentMatchResult from types.ts; the optional fields are absent (none)
when the corresponding source object omits them. -/
structure ContentMatchResult where
  parsed : ParsedFileDetailsLine
  status : MatchStatus
  computedHash : Option Str
  matchedFiles : Option (List Str)
deriving DecidableEq

/-- matchDetailEntriesByPath from verify.ts: maps over the detail lines in
order; a parse throw aborts the whole call, so the map is modelled as a
fold that propagates the first error. -/
def matchDetailEntriesByPath (detailLines : List Str)
    (fileContentHashes : List (Str × Str)) :
    Except VerifyError (List ContentMatchResult) :=
  match detailLines with
  | [] => .ok []
  | line :: restLines =>
    match parseFileDetailsLine line with
    | .error e => .error e
    | .ok parsed =>
      let normalizedEntryPath := normalizePath parsed.filePath
      let r : ContentMatchResult :=
        match lookupBySuffix normalizedEntryPath fileContentHashes with
        | none => ⟨parsed, .notFound, none, none⟩
        | some computedHash =>
          if jsLower computedHash == jsLower parsed.fileContentHash then
            ⟨parsed, .matched, some computedHash, none⟩
          else
            ⟨parsed, .mismatch, some computedHash, none⟩
      match matchDetailEntriesByPath restLines fileContentHashes with
      | .error e => .error e
      | .ok rs => .ok (r :: rs)

/-- The tail of SIMPLE_LINE_RE after the hex part: a space, exactly eight
digits, a dash, exactly six digits, a space, then one or more characters
none of which is a regex line terminator, reaching the end of the string. -/
def simpleTail (m : Str) : Bool :=
  match m with
  | ' ' :: m1 =>
    let d8 := m1.take 8
    let m2 := m1.drop 8
    (match m2 with
     | '-' :: m3 =>
       let d6 := m3.take 6
       let m4 := m3.drop 6
       (match m4 with
        | ' ' :: m5 =>
          d8.length = 8 && d8.all isDigitChar && d6.length = 6 && d6.all isDigitChar
            && !m5.isEmpty
            && m5.all (fun c => !(c = '\n' || c = '\r' || c.toNat = 8232 || c.toNat = 8233))
        | _ => false)
     | _ => false)
  | _ => false

/-- SIMPLE_LINE_RE.test from verify.ts: the regex
/^[0-9a-fA-F]{64,128} \d{8}-\d{6} .+$/ matches when for some count k
between 64 and 128 the first k characters are hex digits and the rest of
the line has the simpleTail shape. -/
def simpleLineTest (l : Str) : Bool :=
  (List.range' 64 65).any fun k =>
    ((l.take k).all isHexChar) && simpleTail (l.drop k)

/-- isSimpleProofsetFormat from verify.ts. -/
def isSimpleProofsetFormat (content : Str) : Bool :=
  match (splitLines content).filter (fun l => !l.isEmpty) with
  | [] => false
  | first :: _ => if detailLineTest first then false else simpleLineTest first

/-- verifySimpleProofsetHash from verify.ts. -/
def verifySimpleProofsetHash (digest : Digest) (content expectedHash : Str) :
    Except VerifyError Bool :=
  match inferAlgorithm expectedHash with
  | .error e => .error e
  | .ok algorithm =>
    let computed := hashBytes digest algorithm (utf8Encode content)
    .ok (computed == jsLower expectedHash)

/-! ## A concrete digest model

The theorems below are parametric in the digest; to evaluate them on
concrete inputs the development provides an executable stand-in digest
that satisfies DigestOK. -/

/-- Lowercase hex digit character for a value below 16. -/
def hexDigitChar (n : Nat) : Char := lowerHexChars.getD n '0'

/-- Fixed-width lowercase-hex rendering of a natural number. -/
def toHexFixed : Nat → Nat → Str
  | 0, _ => []
  | k + 1, n => toHexFixed k (n / 16) ++ [hexDigitChar (n % 16)]

/-- Executable stand-in digest: a simple byte fold rendered as fixed-width
lowercase hex of the algorithm's digest length. -/
def toyDigest : Digest := fun a bs =>
  toHexFixed (hexLenOf a) (bs.foldl (fun acc b => acc * 31 + b + 1) 7)

/-- toHexFixed always renders exactly the requested number of characters. -/
theorem toHexFixed_length (k : Nat) : ∀ n, (toHexFixed k n).length = k := by
  induction k with
  | zero => intro n; rfl
  | succ k ih => intro n; simp [toHexFixed, ih]

/-- toHexFixed renders only lowercase hex digits. -/
theorem toHexFixed_lowerHex (k : Nat) : ∀ n, isLowerHexStr (toHexFixed k n) = true := by
  induction k with
  | zero => intro n; rfl
  | succ k ih =>
    intro n
    have hm : n % 16 < 16 := Nat.mod_lt _ (by omega)
    have hd : ∀ m, m < 16 → lowerHexChars.contains (hexDigitChar m) = true := by decide
    simp only [toHexFixed, isLowerHexStr, List.all_append, List.all_cons, List.all_nil,
      Bool.and_true, Bool.and_eq_true]
    exact ⟨ih (n / 16), hd _ hm⟩

/-- The stand-in digest satisfies the two hash.ts output facts. -/
theorem toyDigestOK : DigestOK toyDigest := by
  intro a bs
  exact ⟨toHexFixed_lowerHex _ _, toHexFixed_length _ _⟩

/-! ## Character-level facts -/

/-- Closed facts about the sixteen lowercase hex digits. -/
theorem lowerHex_char_facts : ∀ c ∈ lowerHexChars,
    asciiLower c = c ∧ c ≠ ':' ∧ c ≠ '\r' ∧ c ≠ '\n' ∧ isHexChar c = true := by
  decide

/-- asciiUpper leaves characters outside a-z unchanged. -/
theorem asciiUpper_of_not_mem {c : Char} (h : c ∉ lowerAlpha) : asciiUpper c = c := by
  have hf : (lowerAlpha.zip upperAlpha).find? (fun p => p.1 == c) = none := by
    rw [List.find?_eq_none]
    intro p hp
    have h1 : p.1 ∈ lowerAlpha := (List.of_mem_zip hp).1
    simp only [beq_iff_eq]
    intro hEq
    exact h (hEq ▸ h1)
  simp [asciiUpper, hf]

/-- asciiLower leaves characters outside A-Z unchanged. -/
theorem asciiLower_of_not_mem {c : Char} (h : c ∉ upperAlpha) : asciiLower c = c := by
  have hf : (upperAlpha.zip lowerAlpha).find? (fun p => p.1 == c) = none := by
    rw [List.find?_eq_none]
    intro p hp
    have h1 : p.1 ∈ upperAlpha := (List.of_mem_zip hp).1
    simp only [beq_iff_eq]
    intro hEq
    exact h (hEq ▸ h1)
  simp [asciiLower, hf]

/-- Lowercasing after uppercasing is the same as lowercasing. -/
theorem asciiLower_asciiUpper (c : Char) : asciiLower (asciiUpper c) = asciiLower c := by
  by_cases h : c ∈ lowerAlpha
  · exact (by decide : ∀ c ∈ lowerAlpha, asciiLower (asciiUpper c) = asciiLower c) c h
  · rw [asciiUpper_of_not_mem h]

/-- asciiUpper maps a-z into A-Z. -/
theorem asciiUpper_mem_of_mem {c : Char} (h : c ∈ lowerAlpha) : asciiUpper c ∈ upperAlpha :=
  (by decide : ∀ c ∈ lowerAlpha, asciiUpper c ∈ upperAlpha) c h

/-- asciiUpper produces a character outside both alphabet ranges only from
that same character. -/
theorem asciiUpper_eq_special {d : Char} (hd1 : d ∉ lowerAlpha) (hd2 : d ∉ upperAlpha)
    (c : Char) : asciiUpper c = d ↔ c = d := by
  by_cases h : c ∈ lowerAlpha
  · constructor
    · intro he
      exact absurd (he ▸ asciiUpper_mem_of_mem h) hd2
    · intro he
      exact absurd (he ▸ h) hd1
  · rw [asciiUpper_of_not_mem h]

/-- Lowercasing a string of lowercase hex digits is the identity. -/
theorem jsLower_of_lowerHex {l : Str} (h : isLowerHexStr l = true) : jsLower l = l := by
  have hmem : ∀ c ∈ l, c ∈ lowerHexChars := by
    intro c hc
    exact List.elem_iff.mp ((List.all_eq_true.mp h) c hc)
  have : ∀ c ∈ l, asciiLower c = c := fun c hc => (lowerHex_char_facts c (hmem c hc)).1
  calc jsLower l = l.map id := List.map_congr_left this
    _ = l := List.map_id l

/-- Lowercase hex strings contain no colon. -/
theorem colon_not_mem_of_lowerHex {l : Str} (h : isLowerHexStr l = true) : ':' ∉ l := by
  intro hc
  have hmem : ':' ∈ lowerHexChars :=
    List.elem_iff.mp ((List.all_eq_true.mp h) _ hc)
  exact absurd hmem (by decide)

/-- Lowercase hex strings contain no carriage return. -/
theorem cr_not_mem_of_lowerHex {l : Str} (h : isLowerHexStr l = true) : '\r' ∉ l := by
  intro hc
  have hmem : '\r' ∈ lowerHexChars :=
    List.elem_iff.mp ((List.all_eq_true.mp h) _ hc)
  exact absurd hmem (by decide)

/-! ## Splitting facts -/

/-- Splitting at the first ": " of a string built as hash, ": ", details
recovers the two parts, provided the hash contains no colon. -/
theorem splitFirstSep_of_no_colon {h : Str} (hh : ':' ∉ h) (d : Str) :
    splitFirstSep (h ++ colonSp ++ d) = some (h, d) := by
  induction h with
  | nil => simp [splitFirstSep, colonSp]
  | cons c h' ih =>
    have hc : c ≠ ':' := fun he => hh (he ▸ List.mem_cons_self c h')
    have hh' : ':' ∉ h' := fun hm => hh (List.mem_cons_of_mem c hm)
    simp only [List.cons_append, splitFirstSep]
    rw [if_neg (by simp [hc])]
    simp only [List.append_eq]
    rw [ih hh']

/-- Splitting on "\r\n" peels off a leading CRLF-terminated piece that
contains no carriage return. -/
theorem splitCRLF_of_no_cr {h : Str} (hh : '\r' ∉ h) (rest : Str) :
    splitCRLF (h ++ crlf ++ rest) = h :: splitCRLF rest := by
  induction h with
  | nil =>
    show splitCRLF ('\r' :: '\n' :: rest) = [] :: splitCRLF rest
    rw [splitCRLF, if_pos ⟨rfl, rfl⟩]
  | cons c h' ih =>
    have hc : c ≠ '\r' := fun he => hh (he ▸ List.mem_cons_self c h')
    have hh' : '\r' ∉ h' := fun hm => hh (List.mem_cons_of_mem c hm)
    cases h' with
    | nil =>
      show splitCRLF (c :: '\r' :: '\n' :: rest) = [c] :: splitCRLF rest
      rw [splitCRLF, if_neg (by simp [hc])]
      rw [show splitCRLF ('\r' :: '\n' :: rest) = [] :: splitCRLF rest by
        rw [splitCRLF, if_pos ⟨rfl, rfl⟩]]
    | cons d h2 =>
      have hrec : splitCRLF (d :: (h2 ++ crlf ++ rest)) = (d :: h2) :: splitCRLF rest := by
        simpa using ih hh'
      show splitCRLF (c :: d :: (h2 ++ crlf ++ rest)) = (c :: d :: h2) :: splitCRLF rest
      rw [splitCRLF, if_neg (by simp [hc])]
      rw [hrec]

/-- Splitting the concatenation of CRLF-terminated hashes on "\r\n" yields
the hashes followed by one empty piece. -/
theorem splitCRLF_flatten (hs : List Str) (hh : ∀ h ∈ hs, '\r' ∉ h) :
    splitCRLF ((hs.map (fun h => h ++ crlf)).flatten) = hs ++ [[]] := by
  induction hs with
  | nil => simp [splitCRLF]
  | cons h t ih =>
    have h1 : '\r' ∉ h := hh h (List.mem_cons_self h t)
    have h2 : ∀ x ∈ t, '\r' ∉ x := fun x hx => hh x (List.mem_cons_of_mem h hx)
    simp only [List.map_cons, List.flatten_cons, List.append_assoc]
    rw [← List.append_assoc h crlf]
    rw [splitCRLF_of_no_cr h1]
    rw [ih h2]
    rfl

/-! ## Chain invariant

The loop of createProofset is characterised by an invariant on its state:
the accumulated entries are correctly chained, the previous pair is the
last entry's pair, and the two accumulated texts are determined by the
entries. -/

/-- The detail-item string of a recorded entry. -/
def entryDetailStr (e : ProofsetFileDetails) : Str :=
  buildFileDetails e.fileSecret e.modifiedTimeUtc e.contentHash e.filePath

/-- The chain relation between consecutive entries: the later entry's
secret is the digest of seed, previous secret, previous detail hash. -/
def chainLink (digest : Digest) (seed : Str) (alg : HashAlgorithm)
    (a b : ProofsetFileDetails) : Prop :=
  b.fileSecret = hashString digest alg (seed ++ a.fileSecret ++ a.fileDetailsHash)

/-- An entry list is well chained when the first secret is the digest of
the seed, consecutive entries satisfy chainLink, and every detail hash is
the digest of its entry's detail-item string. -/
def WellChained (digest : Digest) (seed : Str) (alg : HashAlgorithm)
    (entries : List ProofsetFileDetails) : Prop :=
  (∀ e0, entries.head? = some e0 → e0.fileSecret = hashString digest alg seed) ∧
  List.Chain' (chainLink digest seed alg) entries ∧
  ∀ e ∈ entries, e.fileDetailsHash = hashString digest alg (entryDetailStr e)

/-- Loop invariant of createProofset. -/
def StInv (digest : Digest) (seed : Str) (alg : HashAlgorithm) (st : ChainSt) : Prop :=
  WellChained digest seed alg st.fileDetails ∧
  st.prev = st.fileDetails.getLast?.map (fun e => (e.fileSecret, e.fileDetailsHash)) ∧
  st.fileDetailsHashList =
    (st.fileDetails.map (fun e => e.fileDetailsHash ++ crlf)).flatten ∧
  st.fileDetailsLines =
    st.fileDetails.map (fun e => e.fileDetailsHash ++ colonSp ++ entryDetailStr e)

/-- The initial loop state satisfies the invariant. -/
theorem stInv_init (digest : Digest) (seed : Str) (alg : HashAlgorithm) :
    StInv digest seed alg initSt := by
  refine ⟨⟨?_, ?_, ?_⟩, ?_, ?_, ?_⟩ <;> simp [initSt]

/-- One chain step preserves the invariant. -/
theorem stInv_chainStep (digest : Digest) (seed : Str) (alg : HashAlgorithm)
    (mt ch p : Str) {st : ChainSt} (h : StInv digest seed alg st) :
    StInv digest seed alg (chainStep digest seed alg mt ch st p) := by
  obtain ⟨⟨hhead, hchain, hhash⟩, hprev, hlist, hlines⟩ := h
  cases hE : st.fileDetails.getLast? with
  | none =>
    have hnil : st.fileDetails = [] := List.getLast?_eq_none_iff.mp hE
    have hpnone : st.prev = none := by rw [hprev, hE]; rfl
    refine ⟨⟨?_, ?_, ?_⟩, ?_, ?_, ?_⟩
    · intro e0 he0
      simp only [chainStep, hnil, List.nil_append, List.head?_cons, Option.some.injEq] at he0
      subst he0
      simp [nextSecret, hpnone]
    · simp only [chainStep, hnil, List.nil_append]
      exact List.chain'_singleton _
    · intro e he
      simp only [chainStep, hnil, List.nil_append, List.mem_singleton] at he
      subst he
      rfl
    · simp [chainStep, hnil]
    · simp [chainStep, hnil, hlist]
    · simp [chainStep, hnil, hlines, hhash, entryDetailStr]
  | some l =>
    have hne : st.fileDetails ≠ [] := by
      intro hc
      rw [hc] at hE
      exact absurd hE (by simp)
    have hpsome : st.prev = some (l.fileSecret, l.fileDetailsHash) := by
      rw [hprev, hE]; rfl
    refine ⟨⟨?_, ?_, ?_⟩, ?_, ?_, ?_⟩
    · intro e0 he0
      simp only [chainStep, List.head?_append] at he0
      cases hh0 : st.fileDetails.head? with
      | none => exact absurd (List.head?_eq_none_iff.mp hh0) hne
      | some x =>
        rw [hh0] at he0
        simp only [Option.or_some, Option.some.injEq] at he0
        subst he0
        exact hhead x hh0
    · simp only [chainStep]
      refine List.chain'_append.mpr ⟨hchain, List.chain'_singleton _, ?_⟩
      intro x hx y hy
      rw [hE] at hx
      simp only [Option.mem_def, Option.some.injEq] at hx
      simp only [List.head?_cons, Option.mem_def, Option.some.injEq] at hy
      subst hx
      subst hy
      show _ = hashString digest alg (seed ++ l.fileSecret ++ l.fileDetailsHash)
      simp [nextSecret, hpsome]
    · intro e he
      simp only [chainStep, List.mem_append, List.mem_singleton] at he
      cases he with
      | inl hmem => exact hhash e hmem
      | inr hnew => subst hnew; rfl
    · simp [chainStep]
    · simp [chainStep, hlist]
    · simp [chainStep, hlines, entryDetailStr]

/-- The inner fold over a path list preserves the invariant. -/
theorem stInv_foldl_chainStep (digest : Digest) (seed : Str) (alg : HashAlgorithm)
    (mt ch : Str) (paths : List Str) :
    ∀ {st : ChainSt}, StInv digest seed alg st →
      StInv digest seed alg (paths.foldl (chainStep digest seed alg mt ch) st) := by
  induction paths with
  | nil => intro st h; exact h
  | cons p ps ih =>
    intro st h
    exact ih (stInv_chainStep digest seed alg mt ch p h)

/-- Processing one source file preserves the invariant. -/
theorem stInv_processFile (digest : Digest) (seed : Str) (alg : HashAlgorithm)
    (f : SourceFileEntry) {st : ChainSt} (h : StInv digest seed alg st) :
    StInv digest seed alg (processFile digest seed alg st f) :=
  stInv_foldl_chainStep digest seed alg _ _ _ h

/-- The state reached after the whole file sequence satisfies the invariant. -/
theorem stInv_chainRun (digest : Digest) (seed : Str) (alg : HashAlgorithm)
    (files : List SourceFileEntry) :
    StInv digest seed alg (chainRun digest seed alg files) := by
  suffices hgen : ∀ {st : ChainSt}, StInv digest seed alg st →
      StInv digest seed alg (files.foldl (processFile digest seed alg) st) from
    hgen (stInv_init digest seed alg)
  induction files with
  | nil => intro st h; exact h
  | cons f fs ih =>
    intro st h
    exact ih (stInv_processFile digest seed alg f h)

/-- Index form of a chain: entries at consecutive positions are related. -/
theorem chain'_getElem? {α : Type} {R : α → α → Prop} :
    ∀ {l : List α}, List.Chain' R l →
      ∀ i a b, l[i]? = some a → l[i + 1]? = some b → R a b := by
  intro l
  induction l with
  | nil => intro _ i a b ha; simp at ha
  | cons x xs ih =>
    intro hc i a b ha hb
    cases i with
    | zero =>
      simp only [List.getElem?_cons_zero, Option.some.injEq] at ha
      subst ha
      simp only [List.getElem?_cons_succ] at hb
      cases xs with
      | nil => simp at hb
      | cons y ys =>
        simp only [List.getElem?_cons_zero, Option.some.injEq] at hb
        subst hb
        exact (List.chain'_cons.mp hc).1
    | succ j =>
      simp only [List.getElem?_cons_succ] at ha hb
      exact ih hc.tail j a b ha hb

/-- The inner fold appends exactly the given paths to the recorded
file-path sequence. -/
theorem filePaths_foldl_chainStep (digest : Digest) (seed : Str) (alg : HashAlgorithm)
    (mt ch : Str) (paths : List Str) :
    ∀ st : ChainSt,
      ((paths.foldl (chainStep digest seed alg mt ch) st).fileDetails).map
          (fun e => e.filePath) =
        st.fileDetails.map (fun e => e.filePath) ++ paths := by
  induction paths with
  | nil => intro st; simp
  | cons p ps ih =>
    intro st
    simp only [List.foldl_cons]
    rw [ih]
    simp [chainStep]

/-- The whole run records exactly the concatenation of every file's paths
array, in order. -/
theorem filePaths_chainRun (digest : Digest) (seed : Str) (alg : HashAlgorithm)
    (files : List SourceFileEntry) :
    ((chainRun digest seed alg files).fileDetails).map (fun e => e.filePath) =
      files.flatMap pathsOf := by
  suffices hgen : ∀ st : ChainSt,
      ((files.foldl (processFile digest seed alg) st).fileDetails).map
          (fun e => e.filePath) =
        st.fileDetails.map (fun e => e.filePath) ++ files.flatMap pathsOf by
    simpa [chainRun, initSt] using hgen initSt
  induction files with
  | nil => intro st; simp
  | cons f fs ih =>
    intro st
    simp only [List.foldl_cons]
    rw [ih]
    show (processFile digest seed alg st f).fileDetails.map (fun e => e.filePath) ++ _ = _
    rw [processFile, filePaths_foldl_chainStep]
    simp

/-- Verifying a line assembled as hash, ": ", details splits at the
boundary, infers the algorithm from the hash's length, and compares the
recomputed digest with the (already lowercase) stated hash. -/
theorem verifyFileDetailsLine_build (digest : Digest) (alg : HashAlgorithm)
    {fh : Str} (d : Str) (hhex : isLowerHexStr fh = true)
    (hlen : fh.length = hexLenOf alg) :
    verifyFileDetailsLine digest (fh ++ colonSp ++ d) =
      .ok ⟨hashString digest alg d == fh, fh⟩ := by
  unfold verifyFileDetailsLine
  rw [splitFirstSep_of_no_colon (colon_not_mem_of_lowerHex hhex)]
  have halg : inferAlgorithm fh = .ok alg := by
    cases alg <;> simp_all [inferAlgorithm, hexLenOf]
  simp only [halg, jsLower_of_lowerHex hhex]

/-- Membership check on a hash list assembled from CRLF-terminated
lowercase-hex entries succeeds for each entry. -/
theorem verifyInList_of_mem {hs : List Str} {target : Str} (hmem : target ∈ hs)
    (hhex : ∀ h ∈ hs, isLowerHexStr h = true) (hne : ∀ h ∈ hs, h ≠ []) :
    verifyFileDetailsHashInList target ((hs.map (fun h => h ++ crlf)).flatten) = true := by
  unfold verifyFileDetailsHashInList
  rw [splitCRLF_flatten hs (fun h hh => cr_not_mem_of_lowerHex (hhex h hh))]
  rw [List.any_eq_true]
  refine ⟨target, ?_, by simp⟩
  rw [List.mem_filter]
  refine ⟨List.mem_append_left _ hmem, ?_⟩
  simpa using hne target hmem

/-- Decidable equality for Except results, used to evaluate verification
outcomes on concrete inputs. -/
instance exceptDecEq {ε α : Type} [DecidableEq ε] [DecidableEq α] :
    DecidableEq (Except ε α) := fun x y =>
  match x, y with
  | .ok a, .ok b =>
    if h : a = b then isTrue (by rw [h])
    else isFalse (by intro hc; cases hc; exact h rfl)
  | .error a, .error b =>
    if h : a = b then isTrue (by rw [h])
    else isFalse (by intro hc; cases hc; exact h rfl)
  | .ok _, .error _ => isFalse (by intro hc; cases hc)
  | .error _, .ok _ => isFalse (by intro hc; cases hc)

/-! ## Concrete inputs for evaluating the theorems -/

/-- Concrete modification date used in evaluations. -/
def wDate : JSDate := ⟨2024, 0, 15, 3, 4, 5⟩

/-- Concrete source file with a full/original path. -/
def wFileA : SourceFileEntry := ⟨("f1.txt".data), some ("d/f1.txt".data), wDate, [104, 105]⟩

/-- Concrete source file without a full/original path. -/
def wFileB : SourceFileEntry := ⟨("f2.txt".data), none, wDate, [1, 2, 3]⟩

/-- Concrete proofset configuration. -/
def wCfg : ProofsetConfig := ⟨("abc".data), .sha256⟩

/-- Entries produced for the two concrete files under the stand-in digest. -/
def wEntries : List ProofsetFileDetails :=
  (createProofset toyDigest [wFileA, wFileB] wCfg).fileDetails

/-- Placeholder entry used as a getD default. -/
def wDummy : ProofsetFileDetails := ⟨[], [], [], [], []⟩

/-! ## Claims -/

/-- C1: for every seed password, algorithm, and ordered entry sequence,
createProofset derives the chain exactly as specified: the first entry's
secret is H(seed_password); every subsequent entry's secret is
H(seed_password, previous secret, previous detail hash); each entry's
detail string is its secret, modified time, content hash, and file path
joined by single ASCII spaces; and each entry's detail hash is H of that
detail string. -/
theorem claim1_chain_derivation (digest : Digest) (files : List SourceFileEntry)
    (config : ProofsetConfig) :
    (∀ e0, (createProofset digest files config).fileDetails.head? = some e0 →
      e0.fileSecret = digest config.algorithm (utf8Encode config.seedPassword)) ∧
    (∀ i a b, (createProofset digest files config).fileDetails[i]? = some a →
      (createProofset digest files config).fileDetails[i + 1]? = some b →
      b.fileSecret = digest config.algorithm
        (utf8Encode (config.seedPassword ++ a.fileSecret ++ a.fileDetailsHash))) ∧
    (∀ e ∈ (createProofset digest files config).fileDetails,
      e.fileDetailsHash = digest config.algorithm
        (utf8Encode (e.fileSecret ++ [' '] ++ e.modifiedTimeUtc ++ [' '] ++
          e.contentHash ++ [' '] ++ e.filePath))) := by
  obtain ⟨⟨hhead, hchain, hhash⟩, -, -, -⟩ :=
    stInv_chainRun digest config.seedPassword config.algorithm files
  refine ⟨?_, ?_, ?_⟩
  · intro e0 he0
    exact hhead e0 he0
  · intro i a b ha hb
    exact chain'_getElem? hchain i a b ha hb
  · intro e he
    exact hhash e he

/-- C1 witness: under the stand-in digest, the second concrete entry's
secret is the digest of seed, first secret, first detail hash. -/
theorem claim1_chain_derivation_witness :
    (wEntries.getD 1 wDummy).fileSecret =
      toyDigest .sha256 (utf8Encode (("abc".data) ++ (wEntries.getD 0 wDummy).fileSecret
        ++ (wEntries.getD 0 wDummy).fileDetailsHash)) := by
  have h := (claim1_chain_derivation toyDigest [wFileA, wFileB] wCfg).2.1 0
    (wEntries.getD 0 wDummy) (wEntries.getD 1 wDummy) (by decide) (by decide)
  exact h

/-- C3: every input file emits exactly one chain entry (its relative path)
when no full/original path is present and exactly two (full path first,
then relative path) when one is present, and each emitted entry advances
the chain by one step. -/
theorem claim3_entry_emission (digest : Digest) (files : List SourceFileEntry)
    (config : ProofsetConfig) :
    ((createProofset digest files config).fileDetails).map (fun e => e.filePath) =
        files.flatMap pathsOf ∧
    (∀ f : SourceFileEntry, pathsOf f =
      match f.fullPath with
      | some fp => [fp, f.relativePath]
      | none => [f.relativePath]) ∧
    (∀ f : SourceFileEntry, 1 ≤ (pathsOf f).length ∧ (pathsOf f).length ≤ 2) ∧
    (createProofset digest files config).fileDetails.length =
      (files.map (fun f => if f.fullPath.isSome then 2 else 1)).sum ∧
    List.Chain' (chainLink digest config.seedPassword config.algorithm)
      (createProofset digest files config).fileDetails := by
  obtain ⟨⟨-, hchain, -⟩, -, -, -⟩ :=
    stInv_chainRun digest config.seedPassword config.algorithm files
  have hmap : ((createProofset digest files config).fileDetails).map (fun e => e.filePath) =
      files.flatMap pathsOf :=
    filePaths_chainRun digest config.seedPassword config.algorithm files
  refine ⟨hmap, ?_, ?_, ?_, hchain⟩
  · intro f
    cases hf : f.fullPath <;> simp [pathsOf, hf]
  · intro f
    cases hf : f.fullPath <;> simp [pathsOf, hf]
  · have h1 : (createProofset digest files config).fileDetails.length =
        (files.flatMap pathsOf).length := by
      rw [← hmap, List.length_map]
    rw [h1, List.length_flatMap]
    congr 1
    refine List.map_congr_left ?_
    intro f _
    cases hf : f.fullPath <;> simp [pathsOf, hf]

/-- C3 witness: the two concrete files emit three entries with the
full/original path first. -/
theorem claim3_entry_emission_witness :
    wEntries.map (fun e => e.filePath) =
      [("d/f1.txt".data), ("f1.txt".data), ("f2.txt".data)] ∧
    wEntries.length = 3 := by
  have h := claim3_entry_emission toyDigest [wFileA, wFileB] wCfg
  exact ⟨h.1.trans (by decide), h.2.2.2.1.trans (by decide)⟩

/-- C4: verifyFileDetailsLine splits at the first ": ", infers the
algorithm from the length of the part before it, recomputes the digest of
the remainder, and returns valid exactly when the recomputed digest equals
the lowercased stated hash; with no ": " separator it errors instead of
returning a result, and with an uninferrable hash length it propagates the
inference error. -/
theorem claim4_verify_line (digest : Digest) (line : Str) :
    (splitFirstSep line = none →
      verifyFileDetailsLine digest line = .error .malformedLine) ∧
    (∀ pre rest alg, splitFirstSep line = some (pre, rest) →
      inferAlgorithm pre = .ok alg →
      verifyFileDetailsLine digest line =
        .ok ⟨hashString digest alg rest == jsLower pre, pre⟩) ∧
    (∀ pre rest alg r, splitFirstSep line = some (pre, rest) →
      inferAlgorithm pre = .ok alg →
      verifyFileDetailsLine digest line = .ok r →
      (r.valid = true ↔ hashString digest alg rest = jsLower pre)) ∧
    (∀ pre rest e, splitFirstSep line = some (pre, rest) →
      inferAlgorithm pre = .error e →
      verifyFileDetailsLine digest line = .error e) := by
  refine ⟨?_, ?_, ?_, ?_⟩
  · intro hnone
    simp [verifyFileDetailsLine, hnone]
  · intro pre rest alg hsplit halg
    simp [verifyFileDetailsLine, hsplit, halg]
  · intro pre rest alg r hsplit halg hr
    have : verifyFileDetailsLine digest line =
        .ok ⟨hashString digest alg rest == jsLower pre, pre⟩ := by
      simp [verifyFileDetailsLine, hsplit, halg]
    rw [this] at hr
    cases hr
    simp
  · intro pre rest e hsplit herr
    simp [verifyFileDetailsLine, hsplit, herr]

/-- C4 witness: concrete evaluations of every branch of
verifyFileDetailsLine under the stand-in digest. -/
theorem claim4_verify_line_witness :
    verifyFileDetailsLine toyDigest ("ab".data) = .error .malformedLine ∧
    verifyFileDetailsLine toyDigest (List.replicate 64 'a' ++ colonSp ++ ['x']) =
      .ok ⟨hashString toyDigest .sha256 ['x'] == jsLower (List.replicate 64 'a'),
        List.replicate 64 'a'⟩ ∧
    verifyFileDetailsLine toyDigest (['a'] ++ colonSp ++ ['x']) =
      .error (.invalidHashLength 1) := by
  refine ⟨(claim4_verify_line toyDigest _).1 (by decide), ?_, ?_⟩
  · exact (claim4_verify_line toyDigest _).2.1 (List.replicate 64 'a') ['x'] .sha256
      (by decide) (by decide)
  · exact (claim4_verify_line toyDigest _).2.2.2 ['a'] ['x'] (.invalidHashLength 1)
      (by decide) (by decide)

/-- C5: inferAlgorithm returns SHA-256 for length 64, SHA-512 for length
128, and an InvalidHashLength error for every other length. -/
theorem claim5_infer_algorithm (h : Str) :
    (h.length = 64 → inferAlgorithm h = .ok .sha256) ∧
    (h.length = 128 → inferAlgorithm h = .ok .sha512) ∧
    (h.length ≠ 64 → h.length ≠ 128 →
      inferAlgorithm h = .error (.invalidHashLength h.length)) := by
  refine ⟨?_, ?_, ?_⟩
  · intro h64
    simp [inferAlgorithm, h64]
  · intro h128
    simp [inferAlgorithm, h128]
  · intro h64 h128
    simp [inferAlgorithm, h64, h128]

/-- C5 witness: concrete evaluations of all three branches of
inferAlgorithm. -/
theorem claim5_infer_algorithm_witness :
    inferAlgorithm (List.replicate 64 'a') = .ok .sha256 ∧
    inferAlgorithm (List.replicate 128 'b') = .ok .sha512 ∧
    inferAlgorithm (List.replicate 10 'c') = .error (.invalidHashLength 10) :=
  ⟨(claim5_infer_algorithm _).1 (by decide),
   (claim5_infer_algorithm _).2.1 (by decide),
   (claim5_infer_algorithm _).2.2 (by decide) (by decide)⟩

/-- C10: for the empty file sequence createProofset succeeds, returning no
entries, an empty hash list, the digest of the empty byte string as the
root, and a line list consisting of one CRLF. -/
theorem claim10_empty_sequence (digest : Digest) (config : ProofsetConfig) :
    createProofset digest [] config =
      ⟨digest config.algorithm [], [], [], crlf⟩ := rfl

/-- C2: everything createProofset outputs verifies: the root check accepts
the hash list against the root hash, and every produced detail line is
valid and its hash is a member of the hash list. -/
theorem claim2_round_trip (digest : Digest) (hd : DigestOK digest)
    (files : List SourceFileEntry) (config : ProofsetConfig) :
    verifyHashsetHash digest (createProofset digest files config).fileDetailsHashList
        (createProofset digest files config).hashsetHash = .ok true ∧
    (∀ line ∈ (chainRun digest config.seedPassword config.algorithm
        files).fileDetailsLines,
      ∃ r, verifyFileDetailsLine digest line = .ok r ∧ r.valid = true ∧
        verifyFileDetailsHashInList r.fileDetailsHash
          (createProofset digest files config).fileDetailsHashList = true) := by
  obtain ⟨⟨-, -, hhash⟩, -, hlist, hlines⟩ :=
    stInv_chainRun digest config.seedPassword config.algorithm files
  have hL : (createProofset digest files config).fileDetailsHashList =
      (chainRun digest config.seedPassword config.algorithm files).fileDetailsHashList :=
    rfl
  have hH : (createProofset digest files config).hashsetHash =
      digest config.algorithm (utf8Encode
        (chainRun digest config.seedPassword config.algorithm files).fileDetailsHashList) :=
    rfl
  constructor
  · rw [hL, hH]
    obtain ⟨hhx, hhl⟩ := hd config.algorithm (utf8Encode
      (chainRun digest config.seedPassword config.algorithm files).fileDetailsHashList)
    have halg : inferAlgorithm (digest config.algorithm (utf8Encode
        (chainRun digest config.seedPassword config.algorithm
          files).fileDetailsHashList)) = .ok config.algorithm := by
      cases hA : config.algorithm <;>
        simp_all [inferAlgorithm, hexLenOf]
    simp [verifyHashsetHash, halg, jsLower_of_lowerHex hhx, hashBytes]
  · intro line hline
    rw [hlines] at hline
    obtain ⟨e, he, rfl⟩ := List.mem_map.mp hline
    have hh := hhash e he
    have hex2 : isLowerHexStr e.fileDetailsHash = true := by
      rw [hh]
      exact (hd config.algorithm (utf8Encode (entryDetailStr e))).1
    have len2 : e.fileDetailsHash.length = hexLenOf config.algorithm := by
      rw [hh]
      exact (hd config.algorithm (utf8Encode (entryDetailStr e))).2
    refine ⟨⟨hashString digest config.algorithm (entryDetailStr e) == e.fileDetailsHash,
      e.fileDetailsHash⟩, ?_, ?_, ?_⟩
    · exact verifyFileDetailsLine_build digest config.algorithm (entryDetailStr e) hex2 len2
    · show (hashString digest config.algorithm (entryDetailStr e) == e.fileDetailsHash) = true
      rw [hh]
      simp
    · show verifyFileDetailsHashInList e.fileDetailsHash
        (createProofset digest files config).fileDetailsHashList = true
      rw [hL, hlist, show (List.map (fun e => e.fileDetailsHash ++ crlf)
          (chainRun digest config.seedPassword config.algorithm files).fileDetails) =
          (((chainRun digest config.seedPassword config.algorithm files).fileDetails).map
            (fun e => e.fileDetailsHash)).map (fun h => h ++ crlf) by
        rw [List.map_map]
        rfl]
      apply verifyInList_of_mem
      · exact List.mem_map_of_mem _ he
      · intro h hhm
        obtain ⟨e', he', rfl⟩ := List.mem_map.mp hhm
        rw [hhash e' he']
        exact (hd config.algorithm (utf8Encode (entryDetailStr e'))).1
      · intro h hhm
        obtain ⟨e', he', rfl⟩ := List.mem_map.mp hhm
        rw [hhash e' he']
        intro hc
        have hlen' : (hashString digest config.algorithm (entryDetailStr e')).length =
            hexLenOf config.algorithm :=
          (hd config.algorithm (utf8Encode (entryDetailStr e'))).2
        rw [hc] at hlen'
        cases hA : config.algorithm <;> rw [hA] at hlen' <;> simp [hexLenOf] at hlen'

/-- C2 witness: the concrete proofset's root hash verifies against its
hash list, and its first detail line is valid with a member hash. -/
theorem claim2_round_trip_witness :
    verifyHashsetHash toyDigest
        (createProofset toyDigest [wFileA, wFileB] wCfg).fileDetailsHashList
        (createProofset toyDigest [wFileA, wFileB] wCfg).hashsetHash = .ok true :=
  (claim2_round_trip toyDigest toyDigestOK [wFileA, wFileB] wCfg).1

/-- splitOnChar never returns an empty list of pieces. -/
theorem splitOnChar_ne_nil (sep : Char) (l : Str) : splitOnChar sep l ≠ [] := by
  cases l with
  | nil => simp [splitOnChar]
  | cons c rest =>
    simp only [splitOnChar]
    cases splitOnChar sep rest with
    | nil => simp
    | cons p ps =>
      by_cases hc : c = sep <;> simp [hc]

/-- Splitting peels off a leading separator-free piece. -/
theorem splitOnChar_append {sep : Char} {s : Str} (hs : sep ∉ s) (rest : Str) :
    splitOnChar sep (s ++ sep :: rest) = s :: splitOnChar sep rest := by
  induction s with
  | nil =>
    simp only [List.nil_append, splitOnChar]
    cases h : splitOnChar sep rest with
    | nil => exact absurd h (splitOnChar_ne_nil sep rest)
    | cons p ps => simp
  | cons c s' ih =>
    have hc : c ≠ sep := fun he => hs (he ▸ List.mem_cons_self c s')
    have hs' : sep ∉ s' := fun hm => hs (List.mem_cons_of_mem c hm)
    simp only [List.cons_append, splitOnChar, List.append_eq]
    rw [ih hs']
    simp [hc]

/-- Splitting a string that starts with the separator yields a leading
empty piece. -/
theorem splitOnChar_cons_sep (sep : Char) (p : Str) :
    splitOnChar sep (sep :: p) = [] :: splitOnChar sep p := by
  simp only [splitOnChar]
  cases h : splitOnChar sep p with
  | nil => exact absurd h (splitOnChar_ne_nil sep p)
  | cons q qs => simp

/-- Joining the pieces of a split with the same separator recovers the
original string. -/
theorem joinWith_splitOnChar (sep : Char) (l : Str) :
    joinWith [sep] (splitOnChar sep l) = l := by
  induction l with
  | nil => rfl
  | cons c rest ih =>
    simp only [splitOnChar]
    cases h : splitOnChar sep rest with
    | nil => exact absurd h (splitOnChar_ne_nil sep rest)
    | cons q qs =>
      rw [h] at ih
      show joinWith [sep] (if c = sep then [] :: q :: qs else (c :: q) :: qs) = c :: rest
      by_cases hc : c = sep
      · subst hc
        rw [if_pos rfl]
        show [] ++ [c] ++ joinWith [c] (q :: qs) = c :: rest
        rw [ih]
        rfl
      · rw [if_neg hc]
        cases qs with
        | nil =>
          show c :: q = c :: rest
          rw [show q = rest from ih]
        | cons q2 qs2 =>
          show (c :: q) ++ [sep] ++ joinWith [sep] (q2 :: qs2) = c :: rest
          rw [← ih]
          rfl

/-- dropWhile is the identity when the first character fails the predicate. -/
theorem dropWhile_eq_self_of_head {pred : Char → Bool} {l : Str}
    (h : ∀ c, l.head? = some c → pred c = false) : l.dropWhile pred = l := by
  cases l with
  | nil => rfl
  | cons c rest =>
    rw [List.dropWhile_cons, if_neg]
    rw [h c rfl]
    simp

/-- Trimming is the identity on a string whose first and last characters
are not whitespace, and absorbs one leading space. -/
theorem jsTrim_clean {p : Str} (_hne : p ≠ [])
    (hh : ∀ c, p.head? = some c → jsWsChars.contains c = false)
    (hl : ∀ c, p.getLast? = some c → jsWsChars.contains c = false) :
    jsTrim p = p ∧ jsTrim (' ' :: p) = p := by
  have hrev : ∀ c, p.reverse.head? = some c → jsWsChars.contains c = false := by
    intro c hc
    rw [List.head?_reverse] at hc
    exact hl c hc
  have hdrop : p.dropWhile (fun c => jsWsChars.contains c) = p :=
    dropWhile_eq_self_of_head hh
  have hdropr : p.reverse.dropWhile (fun c => jsWsChars.contains c) = p.reverse :=
    dropWhile_eq_self_of_head hrev
  constructor
  · rw [jsTrim, hdrop, hdropr, List.reverse_reverse]
  · rw [jsTrim]
    rw [List.dropWhile_cons, if_pos (by decide), hdrop, hdropr, List.reverse_reverse]

/-- The split of a canonical or legacy detail string: three space-free
fields, a double space, then the path. -/
theorem splitOnChar_legacy (s t c p : Str) (hs : ' ' ∉ s) (ht : ' ' ∉ t) (hc : ' ' ∉ c) :
    splitOnChar ' ' (s ++ [' '] ++ t ++ [' '] ++ c ++ [' ', ' '] ++ p) =
      s :: t :: c :: [] :: splitOnChar ' ' p := by
  have hshape : s ++ [' '] ++ t ++ [' '] ++ c ++ [' ', ' '] ++ p =
      s ++ ' ' :: (t ++ ' ' :: (c ++ ' ' :: (' ' :: p))) := by
    simp [List.append_assoc]
  rw [hshape, splitOnChar_append hs, splitOnChar_append ht, splitOnChar_append hc,
    splitOnChar_cons_sep]

/-- Rejoining the tail pieces of a legacy split recovers a space then the
path. -/
theorem joinWith_legacy_tail (p : Str) :
    joinWith [' '] ([] :: splitOnChar ' ' p) = ' ' :: p := by
  cases h : splitOnChar ' ' p with
  | nil => exact absurd h (splitOnChar_ne_nil ' ' p)
  | cons q qs =>
    show joinWith [' '] ([] :: q :: qs) = ' ' :: p
    have hj : joinWith [' '] (q :: qs) = p := by
      rw [← h, joinWith_splitOnChar]
    show [] ++ [' '] ++ joinWith [' '] (q :: qs) = ' ' :: p
    rw [hj]
    rfl

/-- Evaluation form of parseFileDetailsLine once the first ": " split is
known. -/
theorem parseFileDetailsLine_eval {line pre rest : Str}
    (hsplit : splitFirstSep line = some (pre, rest)) :
    parseFileDetailsLine line =
      (if (splitOnChar ' ' rest).length < 4 then .error .malformedDetailItem
       else if (jsTrim (joinWith [' '] ((splitOnChar ' ' rest).drop 3))).length = 0 then
         .error .emptyPath
       else .ok ⟨pre, (splitOnChar ' ' rest).getD 0 [], (splitOnChar ' ' rest).getD 1 [],
         (splitOnChar ' ' rest).getD 2 [],
         jsTrim (joinWith [' '] ((splitOnChar ' ' rest).drop 3))⟩) := by
  rw [parseFileDetailsLine, hsplit]

/-- C7: parseFileDetailsLine splits the part after the first ": " on
spaces, errors with the malformed-item error on fewer than four pieces,
errors with the empty-path error when the rejoined and trimmed path is
blank, and otherwise returns the first three pieces as secret, timestamp,
content hash with the remaining pieces rejoined by single spaces and
trimmed as the path; in particular the path of a legacy double-space line
is recovered exactly. -/
theorem claim7_parse_line (line : Str) :
    (∀ pre rest, splitFirstSep line = some (pre, rest) →
      (splitOnChar ' ' rest).length < 4 →
      parseFileDetailsLine line = .error .malformedDetailItem) ∧
    (∀ pre rest, splitFirstSep line = some (pre, rest) →
      4 ≤ (splitOnChar ' ' rest).length →
      jsTrim (joinWith [' '] ((splitOnChar ' ' rest).drop 3)) = [] →
      parseFileDetailsLine line = .error .emptyPath) ∧
    (∀ pre rest, splitFirstSep line = some (pre, rest) →
      4 ≤ (splitOnChar ' ' rest).length →
      jsTrim (joinWith [' '] ((splitOnChar ' ' rest).drop 3)) ≠ [] →
      parseFileDetailsLine line = .ok
        ⟨pre, (splitOnChar ' ' rest).getD 0 [], (splitOnChar ' ' rest).getD 1 [],
          (splitOnChar ' ' rest).getD 2 [],
          jsTrim (joinWith [' '] ((splitOnChar ' ' rest).drop 3))⟩) ∧
    (∀ h s t c p, ':' ∉ h → ' ' ∉ s → ' ' ∉ t → ' ' ∉ c → p ≠ [] →
      (∀ c0, p.head? = some c0 → jsWsChars.contains c0 = false) →
      (∀ c0, p.getLast? = some c0 → jsWsChars.contains c0 = false) →
      line = h ++ colonSp ++ (s ++ [' '] ++ t ++ [' '] ++ c ++ [' ', ' '] ++ p) →
      parseFileDetailsLine line = .ok ⟨h, s, t, c, p⟩) := by
  refine ⟨?_, ?_, ?_, ?_⟩
  · intro pre rest hsplit hlt
    rw [parseFileDetailsLine_eval hsplit, if_pos hlt]
  · intro pre rest hsplit hge hpath
    rw [parseFileDetailsLine_eval hsplit,
      if_neg (by omega : ¬ (splitOnChar ' ' rest).length < 4),
      if_pos (by simp [hpath])]
  · intro pre rest hsplit hge hpath
    rw [parseFileDetailsLine_eval hsplit,
      if_neg (by omega : ¬ (splitOnChar ' ' rest).length < 4),
      if_neg (by simpa [List.length_eq_zero] using hpath)]
  · intro h s t c p hcolon hsp hsp2 hsp3 hne hhd hlast hline
    have hsplit : splitFirstSep line =
        some (h, s ++ [' '] ++ t ++ [' '] ++ c ++ [' ', ' '] ++ p) := by
      rw [hline]
      exact splitFirstSep_of_no_colon hcolon _
    have hparts := splitOnChar_legacy s t c p hsp hsp2 hsp3
    have htrim := (jsTrim_clean hne hhd hlast).2
    rw [parseFileDetailsLine_eval hsplit, hparts]
    rw [if_neg (by simp only [List.length_cons]; omega :
      ¬ (s :: t :: c :: [] :: splitOnChar ' ' p).length < 4)]
    have hdrop : (s :: t :: c :: [] :: splitOnChar ' ' p).drop 3 =
        [] :: splitOnChar ' ' p := rfl
    rw [hdrop, joinWith_legacy_tail, htrim]
    rw [if_neg (by simpa [List.length_eq_zero] using hne)]
    rfl

/-- C7 witness: a concrete legacy double-space line with a path containing
a space parses to its exact fields. -/
theorem claim7_parse_line_witness :
    parseFileDetailsLine (List.replicate 64 'a' ++ colonSp ++
        (("sec".data) ++ [' '] ++ ("20240115-030405".data) ++ [' '] ++ ("ch".data) ++
          [' ', ' '] ++ ("my path".data))) =
      .ok ⟨List.replicate 64 'a', ("sec".data), ("20240115-030405".data), ("ch".data),
        ("my path".data)⟩ := by
  apply (claim7_parse_line _).2.2.2
  · decide
  · decide
  · decide
  · decide
  · decide
  · intro c0 hc0
    have : some 'm' = some c0 := hc0
    cases this
    decide
  · intro c0 hc0
    have : some 'h' = some c0 := hc0
    cases this
    decide
  · rfl

/-- The chained-detail-line pattern holds exactly when some 64..128-long
hex head is followed by ": ". -/
theorem detailLineTest_iff (l : Str) :
    detailLineTest l = true ↔
      ∃ k, 64 ≤ k ∧ k ≤ 128 ∧ ((l.take k).all isHexChar) = true ∧
        ((l.drop k).take 2 == colonSp) = true := by
  unfold detailLineTest
  rw [List.any_eq_true]
  constructor
  · rintro ⟨k, hk, hcond⟩
    rw [List.mem_range'_1] at hk
    rw [Bool.and_eq_true] at hcond
    exact ⟨k, by omega, by omega, hcond.1, hcond.2⟩
  · rintro ⟨k, h1, h2, h3, h4⟩
    refine ⟨k, List.mem_range'_1.mpr ⟨h1, by omega⟩, ?_⟩
    rw [Bool.and_eq_true]
    exact ⟨h3, h4⟩

/-- The simple-proofset line pattern holds exactly when some 64..128-long
hex head is followed by the timestamp-and-name tail shape. -/
theorem simpleLineTest_iff (l : Str) :
    simpleLineTest l = true ↔
      ∃ k, 64 ≤ k ∧ k ≤ 128 ∧ ((l.take k).all isHexChar) = true ∧
        simpleTail (l.drop k) = true := by
  unfold simpleLineTest
  rw [List.any_eq_true]
  constructor
  · rintro ⟨k, hk, hcond⟩
    rw [List.mem_range'_1] at hk
    rw [Bool.and_eq_true] at hcond
    exact ⟨k, by omega, by omega, hcond.1, hcond.2⟩
  · rintro ⟨k, h1, h2, h3, h4⟩
    refine ⟨k, List.mem_range'_1.mpr ⟨h1, by omega⟩, ?_⟩
    rw [Bool.and_eq_true]
    exact ⟨h3, h4⟩

/-- C9: isSimpleProofsetFormat accepts exactly the contents whose first
non-empty line matches the simple-proofset pattern and not the
chained-detail-line pattern; contents with no non-empty line are never
classified as simple. -/
theorem claim9_simple_format (content : Str) :
    isSimpleProofsetFormat content = true ↔
      ∃ first, ((splitLines content).filter (fun l => !l.isEmpty)).head? = some first ∧
        (∃ k, 64 ≤ k ∧ k ≤ 128 ∧ ((first.take k).all isHexChar) = true ∧
          simpleTail (first.drop k) = true) ∧
        ¬ (∃ k, 64 ≤ k ∧ k ≤ 128 ∧ ((first.take k).all isHexChar) = true ∧
          ((first.drop k).take 2 == colonSp) = true) := by
  unfold isSimpleProofsetFormat
  cases hf : (splitLines content).filter (fun l => !l.isEmpty) with
  | nil => simp
  | cons first rest =>
    constructor
    · intro h
      have h' : (if detailLineTest first then false else simpleLineTest first) = true := h
      by_cases hd : detailLineTest first = true
      · rw [if_pos hd] at h'
        exact absurd h' (by simp)
      · rw [if_neg hd] at h'
        refine ⟨first, by simp, (simpleLineTest_iff first).mp h', ?_⟩
        intro hc
        exact hd ((detailLineTest_iff first).mpr hc)
    · rintro ⟨f, hfeq, hsimple, hnotdetail⟩
      simp only [List.head?_cons, Option.some.injEq] at hfeq
      subst hfeq
      show (if detailLineTest first then false else simpleLineTest first) = true
      rw [if_neg (fun hd => hnotdetail ((detailLineTest_iff first).mp hd))]
      exact (simpleLineTest_iff first).mpr hsimple

/-- C9 witness: a concrete simple-proofset line is classified as simple,
and a concrete detail line is not. -/
theorem claim9_simple_format_witness :
    isSimpleProofsetFormat (List.replicate 64 'a' ++
        ((" 20240115-030405 f.txt".data))) = true ∧
    isSimpleProofsetFormat (List.replicate 64 'a' ++ colonSp ++ ['x']) = false := by
  constructor
  · apply (claim9_simple_format _).mpr
    refine ⟨_, rfl, ⟨64, by omega, by omega, by decide, by decide⟩, ?_⟩
    intro hc
    exact absurd ((detailLineTest_iff _).mpr hc) (by decide)
  · by_contra hc
    rw [Bool.not_eq_false] at hc
    obtain ⟨first, hfirst, hsimple, -⟩ := (claim9_simple_format _).mp hc
    have hfe : first = List.replicate 64 'a' ++ colonSp ++ ['x'] := by
      have : some (List.replicate 64 'a' ++ colonSp ++ ['x']) = some first := by
        rw [← hfirst]
        decide
      cases this
      rfl
    subst hfe
    exact absurd ((simpleLineTest_iff _).mpr hsimple) (by decide)

/-- A path with no slash has no slash suffixes. -/
theorem slashSuffixes_of_none {p : Str} (h : afterFirstSlash p = none) :
    slashSuffixes p = [] := by
  induction p with
  | nil => rfl
  | cons c rest ih =>
    by_cases hc : c = '/'
    · simp [afterFirstSlash, hc] at h
    · simp only [afterFirstSlash, if_neg hc] at h
      simp [slashSuffixes, hc, ih h]

/-- The slash suffixes of a path are the text after its first slash
followed by that text's own slash suffixes. -/
theorem slashSuffixes_of_some {p rest : Str} (h : afterFirstSlash p = some rest) :
    slashSuffixes p = rest :: slashSuffixes rest := by
  induction p with
  | nil => simp [afterFirstSlash] at h
  | cons c p' ih =>
    by_cases hc : c = '/'
    · simp only [afterFirstSlash, if_pos hc, Option.some.injEq] at h
      subst h
      simp [slashSuffixes, hc]
    · simp only [afterFirstSlash, if_neg hc] at h
      simp [slashSuffixes, hc, ih h]

/-- Unfolding stripLoop when the remaining path has no slash. -/
theorem stripLoop_eq_none (m : List (Str × Str)) {p : Str}
    (h : afterFirstSlash p = none) : stripLoop m p = none := by
  rw [stripLoop]
  split
  · rfl
  · next rest heq =>
    rw [h] at heq
    exact absurd heq (by simp)

/-- Unfolding stripLoop one iteration. -/
theorem stripLoop_eq_some (m : List (Str × Str)) {p rest : Str}
    (h : afterFirstSlash p = some rest) :
    stripLoop m p =
      (if rest = [] then none
       else
         match (m.find? (fun e => e.1 == rest)).map (fun e => e.2) with
         | some found => some found
         | none => stripLoop m rest) := by
  rw [stripLoop]
  split
  · next heq =>
    rw [h] at heq
    exact absurd heq (by simp)
  · next r heq =>
    rw [h] at heq
    injection heq with h2
    subst h2
    rfl

/-- The stripping loop is the first hit of the map over the ordered strip
candidates. -/
theorem stripLoop_eq (m : List (Str × Str)) (p : Str) :
    stripLoop m p = (stripCandidates p).findSome? (fun r => mapGet m r) := by
  generalize hn : p.length = n
  induction n using Nat.strong_induction_on generalizing p with
  | _ n ih =>
    cases hs : afterFirstSlash p with
    | none =>
      rw [stripLoop_eq_none m hs]
      rw [stripCandidates, slashSuffixes_of_none hs]
      rfl
    | some rest =>
      rw [stripLoop_eq_some m hs]
      rw [stripCandidates, slashSuffixes_of_some hs]
      by_cases hr : rest = []
      · subst hr
        rw [if_pos rfl]
        simp [slashSuffixes]
      · rw [if_neg hr]
        have hfil : (rest :: slashSuffixes rest).filter (fun r => !r.isEmpty) =
            rest :: (slashSuffixes rest).filter (fun r => !r.isEmpty) := by
          rw [List.filter_cons_of_pos]
          simpa using hr
        rw [hfil, List.findSome?_cons]
        cases hg : mapGet m rest with
        | some v =>
          show (match mapGet m rest with
            | some found => some found
            | none => stripLoop m rest) = _
          rw [hg]
        | none =>
          show (match mapGet m rest with
            | some found => some found
            | none => stripLoop m rest) = _
          rw [hg]
          have hlt : rest.length < n := hn ▸ afterFirstSlash_length hs
          exact ih rest.length hlt rest rfl

/-- lookupBySuffix is the ordered, short-circuiting composition of the
exact lookup, the suffix-stripping candidates, and — only for paths with
no directory component — the filename scan. -/
theorem lookupBySuffix_eq (p : Str) (m : List (Str × Str)) :
    lookupBySuffix p m =
      ((mapGet m p).orElse (fun _ =>
        ((stripCandidates p).findSome? (fun r => mapGet m r)).orElse (fun _ =>
          if p.contains '/' then none else filenameScan p m))) := by
  cases hd : mapGet m p with
  | some v => simp only [lookupBySuffix, hd]; rfl
  | none =>
    simp only [lookupBySuffix, hd, Option.none_orElse]
    rw [← stripLoop_eq]
    cases hf : stripLoop m p with
    | some v => simp
    | none => simp

/-- C8: by-path matching resolves a (slash-normalized) entry path by
trying, in order with short-circuiting, the exact lookup, the repeated
stripping of the leftmost path segment, and — only when the path has no
directory component — a first-match filename scan; an entry whose exact
path is absent but that has a suffix present in the map still resolves;
and the result status is matched, mismatch, or notFound according to the
case-insensitive comparison of the found hash with the stated one. -/
theorem claim8_path_matching (p : Str) (m : List (Str × Str)) (line : Str) :
    (lookupBySuffix p m =
      ((mapGet m p).orElse (fun _ =>
        ((stripCandidates p).findSome? (fun r => mapGet m r)).orElse (fun _ =>
          if p.contains '/' then none else filenameScan p m)))) ∧
    (mapGet m p = none → (∃ q ∈ stripCandidates p, (mapGet m q).isSome = true) →
      (lookupBySuffix p m).isSome = true) ∧
    (∀ parsed, parseFileDetailsLine line = .ok parsed →
      matchDetailEntriesByPath [line] m = .ok
        [match lookupBySuffix (normalizePath parsed.filePath) m with
         | none => ⟨parsed, .notFound, none, none⟩
         | some h =>
           ⟨parsed,
             if jsLower h == jsLower parsed.fileContentHash then .matched else .mismatch,
             some h, none⟩]) := by
  refine ⟨lookupBySuffix_eq p m, ?_, ?_⟩
  · intro hnone hex
    rw [lookupBySuffix_eq, hnone]
    obtain ⟨q, hq, hqs⟩ := hex
    cases hf : (stripCandidates p).findSome? (fun r => mapGet m r) with
    | some v => rfl
    | none =>
      rw [List.findSome?_eq_none_iff] at hf
      rw [hf q hq] at hqs
      exact absurd hqs (by simp)
  · intro parsed hparse
    simp only [matchDetailEntriesByPath, hparse]
    cases hl : lookupBySuffix (normalizePath parsed.filePath) m with
    | none => simp [hl]
    | some h =>
      by_cases hcmp : (jsLower h == jsLower parsed.fileContentHash) = true
      · simp [hl, hcmp]
      · simp [hl, hcmp]

/-- Concrete detail line with a legacy absolute backslash path. -/
def wLine8 : Str :=
  List.replicate 64 'a' ++ colonSp ++ ("sec 20240115-030405 AB C:\\x\\dir1\\f.txt".data)

/-- Concrete path-to-hash map observing only the relative suffix. -/
def wMap8 : List (Str × Str) := [(("dir1/f.txt".data), ("ab".data))]

/-- Parsed form of the concrete legacy detail line. -/
def wParsed8 : ParsedFileDetailsLine :=
  ⟨List.replicate 64 'a', ("sec".data), ("20240115-030405".data), ("AB".data),
    ("C:\\x\\dir1\\f.txt".data)⟩

/-- C8 witness: the legacy absolute path resolves through the suffix
fallback and matches case-insensitively. -/
theorem claim8_path_matching_witness :
    matchDetailEntriesByPath [wLine8] wMap8 =
      .ok [⟨wParsed8, .matched, some ("ab".data), none⟩] := by
  have h2 := (claim8_path_matching (normalizePath wParsed8.filePath) wMap8 wLine8).2.2
    wParsed8 (by decide)
  rw [h2]
  have h0 := (claim8_path_matching (normalizePath wParsed8.filePath) wMap8 wLine8).1
  rw [h0]
  decide

/-- Lowercasing after uppercasing a string is the same as lowercasing it. -/
theorem jsLower_jsUpper (l : Str) : jsLower (jsUpper l) = jsLower l := by
  simp only [jsLower, jsUpper, List.map_map]
  exact List.map_congr_left fun c _ => asciiLower_asciiUpper c

/-- Evaluation form of verifyFileDetailsLine once the first ": " split is
known. -/
theorem verifyFileDetailsLine_eval (digest : Digest) {line pre rest : Str}
    (hsplit : splitFirstSep line = some (pre, rest)) :
    verifyFileDetailsLine digest line =
      (match inferAlgorithm pre with
       | .error e => .error e
       | .ok alg => .ok ⟨hashString digest alg rest == jsLower pre, pre⟩) := by
  rw [verifyFileDetailsLine, hsplit]

/-- Hex strings (either case) contain no colon. -/
theorem colon_not_mem_of_hex {l : Str} (h : l.all isHexChar = true) : ':' ∉ l := by
  intro hc
  have := (List.all_eq_true.mp h) _ hc
  rw [isHexChar] at this
  have hmem : ':' ∈ hexChars := List.elem_iff.mp this
  exact absurd hmem (by decide)

/-- Uppercasing a hex string yields a hex string. -/
theorem jsUpper_hex {l : Str} (h : l.all isHexChar = true) :
    (jsUpper l).all isHexChar = true := by
  rw [List.all_eq_true]
  intro c hc
  obtain ⟨c0, hc0, rfl⟩ := List.mem_map.mp hc
  have h0 := (List.all_eq_true.mp h) c0 hc0
  rw [isHexChar] at h0 ⊢
  have hmem : c0 ∈ hexChars := List.elem_iff.mp h0
  have : ∀ c ∈ hexChars, hexChars.contains (asciiUpper c) = true := by decide
  exact this c0 hmem

/-- Uppercasing a carriage-return-free string stays carriage-return-free. -/
theorem jsUpper_no_cr {l : Str} (h : '\r' ∉ l) : '\r' ∉ jsUpper l := by
  intro hc
  obtain ⟨c0, hc0, heq⟩ := List.mem_map.mp hc
  rw [asciiUpper_eq_special (by decide) (by decide)] at heq
  exact h (heq ▸ hc0)

/-- Pointwise-equal predicates give equal any. -/
theorem any_congr_mem {α : Type} {p q : α → Bool} :
    ∀ {l : List α}, (∀ a ∈ l, p a = q a) → l.any p = l.any q := by
  intro l
  induction l with
  | nil => intro _; rfl
  | cons x xs ih =>
    intro h
    simp only [List.any_cons, h x (List.mem_cons_self x xs),
      ih fun a ha => h a (List.mem_cons_of_mem x ha)]

/-- C6 (amended): uppercasing hex values at compared positions preserves
verification outcomes — the valid field of verifyFileDetailsLine for an
uppercased stated hash, verifyHashsetHash and verifySimpleProofsetHash for
an uppercased expected hash, and verifyFileDetailsHashInList for an
uppercased target or uppercased stored entries. -/
theorem claim6_case_insensitive (digest : Digest)
    (pre rest list expected target content : Str) (hs : List Str) :
    (pre.all isHexChar = true →
      (verifyFileDetailsLine digest (jsUpper pre ++ colonSp ++ rest)).map
          (fun r => r.valid) =
        (verifyFileDetailsLine digest (pre ++ colonSp ++ rest)).map
          (fun r => r.valid)) ∧
    verifyHashsetHash digest list (jsUpper expected) =
      verifyHashsetHash digest list expected ∧
    verifyFileDetailsHashInList (jsUpper target) list =
      verifyFileDetailsHashInList target list ∧
    ((∀ h ∈ hs, '\r' ∉ h) →
      verifyFileDetailsHashInList target
          (((hs.map jsUpper).map (fun h => h ++ crlf)).flatten) =
        verifyFileDetailsHashInList target ((hs.map (fun h => h ++ crlf)).flatten)) ∧
    verifySimpleProofsetHash digest content (jsUpper expected) =
      verifySimpleProofsetHash digest content expected := by
  have hialg : ∀ l : Str, inferAlgorithm (jsUpper l) = inferAlgorithm l := by
    intro l
    simp [inferAlgorithm, jsUpper]
  refine ⟨?_, ?_, ?_, ?_, ?_⟩
  · intro hhex
    rw [verifyFileDetailsLine_eval digest
        (splitFirstSep_of_no_colon (colon_not_mem_of_hex (jsUpper_hex hhex)) rest),
      verifyFileDetailsLine_eval digest
        (splitFirstSep_of_no_colon (colon_not_mem_of_hex hhex) rest)]
    rw [hialg pre]
    cases hi : inferAlgorithm pre with
    | error e => rfl
    | ok alg =>
      simp [Except.map, jsLower_jsUpper]
  · rw [verifyHashsetHash, verifyHashsetHash, hialg expected]
    cases hi : inferAlgorithm expected with
    | error e => rfl
    | ok alg =>
      simp only [jsLower_jsUpper]
  · unfold verifyFileDetailsHashInList
    simp only [jsLower_jsUpper]
  · intro hcr
    unfold verifyFileDetailsHashInList
    rw [splitCRLF_flatten hs hcr,
      splitCRLF_flatten (hs.map jsUpper) (by
        intro h hh
        obtain ⟨h0, hh0, rfl⟩ := List.mem_map.mp hh
        exact jsUpper_no_cr (hcr h0 hh0))]
    rw [List.filter_append, List.filter_append]
    have hemp : List.filter (fun l => !l.isEmpty) [([] : Str)] = [] := by decide
    rw [hemp, List.append_nil, List.append_nil]
    rw [show (hs.map jsUpper).filter (fun l => !l.isEmpty) =
        (hs.filter ((fun l => !l.isEmpty) ∘ jsUpper)).map jsUpper from
      List.filter_map jsUpper hs]
    have hfil : List.filter ((fun l => !l.isEmpty) ∘ jsUpper) hs =
        List.filter (fun l => !l.isEmpty) hs := by
      apply List.filter_congr
      intro a _
      show (!(jsUpper a).isEmpty) = !a.isEmpty
      cases a <;> rfl
    rw [hfil, List.any_map]
    apply any_congr_mem
    intro a _
    show (jsLower (jsUpper a) == jsLower target) = (jsLower a == jsLower target)
    rw [jsLower_jsUpper]
  · rw [verifySimpleProofsetHash, verifySimpleProofsetHash, hialg expected]
    cases hi : inferAlgorithm expected with
    | error e => rfl
    | ok alg =>
      simp only [jsLower_jsUpper]

/-- C6 counterexample: uppercasing the hex hash of a detail line changes
the returned record (the echoed hash reflects the casing), and uppercasing
the hex inside the hash-list bytes flips the root verification outcome. -/
theorem claim6_case_insensitive_counterexample :
    verifyFileDetailsLine toyDigest
        (jsUpper (List.replicate 64 'a') ++ colonSp ++ ['x']) ≠
      verifyFileDetailsLine toyDigest (List.replicate 64 'a' ++ colonSp ++ ['x']) ∧
    verifyHashsetHash toyDigest (jsUpper (List.replicate 64 'a' ++ crlf))
        (toyDigest .sha256 (utf8Encode (List.replicate 64 'a' ++ crlf))) ≠
      verifyHashsetHash toyDigest (List.replicate 64 'a' ++ crlf)
        (toyDigest .sha256 (utf8Encode (List.replicate 64 'a' ++ crlf))) := by
  constructor
  · decide
  · decide

/-- C6 witness: concrete instances of the amended preservation facts. -/
theorem claim6_case_insensitive_witness :
    (verifyFileDetailsLine toyDigest
        (jsUpper (List.replicate 64 'a') ++ colonSp ++ ['x'])).map (fun r => r.valid) =
      (verifyFileDetailsLine toyDigest
        (List.replicate 64 'a' ++ colonSp ++ ['x'])).map (fun r => r.valid) ∧
    verifyFileDetailsHashInList ("AB".data)
        ((([("ab".data)].map jsUpper).map (fun h => h ++ crlf)).flatten) =
      verifyFileDetailsHashInList ("AB".data)
        (([("ab".data)].map (fun h => h ++ crlf)).flatten) := by
  have h := claim6_case_insensitive toyDigest (List.replicate 64 'a') ['x'] []
    [] ("AB".data) [] [("ab".data)]
  exact ⟨h.1 (by decide), h.2.2.2.1 (by decide)⟩

end Proofset
